import Mathlib

/-!
# Verification of the FashionGo email-scraper enrichment core

Shallow embedding of `src/email_scraper_final.py`.  Strings are modelled as
`List Char`; the pure decision logic of each function is embedded directly,
with network effects (HTTP responses, fetched page bodies) passed in as
explicit oracle arguments.  Python semantics respected here:

* `str.lower()` / `str.upper()`  → `List.map Char.toLower` / `toUpper`
  (ASCII-faithful);
* `str.strip()`                  → drop `Char.isWhitespace` at both ends;
* `a in b` on strings            → contiguous-substring test `hasSub`;
* `s.split(sep)`                 → `splitChar` (single-char separator);
* `s[:-k]`                       → `List.take (length - k)`;
* `re.findall` of `EMAIL_PATTERN` → an explicit backtracking matcher for
  the one pattern `\b L+ @ D+ \. T{2,} \b` used by the code (see below),
  scanning left to right and resuming after each non-overlapping match,
  exactly like CPython's `re` engine on this pattern.
-/

/-- Characters of `List Char` taken from a string literal. -/
def lc (s : String) : List Char := s.data

/-- Python `str.lower()` (ASCII). -/
def lowerL (l : List Char) : List Char := l.map Char.toLower

/-- Python `str.upper()` (ASCII). -/
def upperL (l : List Char) : List Char := l.map Char.toUpper

/-- Python `str.strip()`: whitespace removed from both ends. -/
def trimL (l : List Char) : List Char :=
  ((l.dropWhile Char.isWhitespace).reverse.dropWhile Char.isWhitespace).reverse

/-- Python's substring operator `needle in hay` for strings. -/
def hasSub (needle : List Char) : List Char → Bool
  | [] => needle.isPrefixOf []
  | c :: t => needle.isPrefixOf (c :: t) || hasSub needle t

/-- Python `s.split(sep)` for a single-character separator. -/
def splitChar (sep : Char) : List Char → List (List Char)
  | [] => [[]]
  | c :: cs =>
    if c = sep then [] :: splitChar sep cs
    else
      match splitChar sep cs with
      | [] => [[c]]
      | p :: ps => (c :: p) :: ps

/-- Python `s.rstrip('/')`: all trailing `'/'` removed. -/
def rstripSlash (l : List Char) : List Char :=
  (l.reverse.dropWhile (fun c => c = '/')).reverse

/-- The suffix of `l` strictly after the first occurrence of `sep`
(`none` when `sep` does not occur); used to model Python's
`s.split(sep)[1]` for a multi-character `sep`. -/
def dropAfterSeq (sep : List Char) : List Char → Option (List Char)
  | [] => none
  | c :: cs =>
    if sep.isPrefixOf (c :: cs) then some ((c :: cs).drop sep.length)
    else dropAfterSeq sep cs

/-- The prefix of `l` before the first occurrence of `sep`
(all of `l` when `sep` does not occur). -/
def takeBeforeSeq (sep : List Char) : List Char → List Char
  | [] => []
  | c :: cs =>
    if sep.isPrefixOf (c :: cs) then []
    else c :: takeBeforeSeq sep cs

/-!
## The e-mail pattern

`EMAIL_PATTERN = re.compile(r'\b[A-Za-z0-9._%+-]+@[A-Za-z0-9.-]+\.[A-Z|a-z]{2,}\b')`
(line 19 of the source).  Note the character class `[A-Z|a-z]`: as written
in the code it also contains the literal `'|'`.  The matcher below is
parameterised by the TLD class `tc` so that the class as typed (`tch`) can
be compared with the class the spec states (`tchSpec = [A-Za-z]`).
-/

/-- The local-part class `[A-Za-z0-9._%+-]`. -/
def lch (c : Char) : Bool :=
  c.isAlpha || c.isDigit || c = '.' || c = '_' || c = '%' || c = '+' || c = '-'

/-- The domain class `[A-Za-z0-9.-]`. -/
def dch (c : Char) : Bool :=
  c.isAlpha || c.isDigit || c = '.' || c = '-'

/-- The TLD class as typed in the code: `[A-Z|a-z]`, i.e. letters and `'|'`. -/
def tch (c : Char) : Bool := c.isAlpha || c = '|'

/-- The TLD class as the spec states it: `[A-Za-z]`. -/
def tchSpec (c : Char) : Bool := c.isAlpha

/-- A regex word character (`\w` for ASCII input): `[A-Za-z0-9_]`. -/
def wordChar (c : Char) : Bool := c.isAlpha || c.isDigit || c = '_'

/-- Is the (optional) character at one side of a position a word character?
`none` stands for the edge of the string and counts as non-word. -/
def owc : Option Char → Bool
  | none => false
  | some c => wordChar c

/-- `\b` between a left and a right neighbour: exactly one side is a word
character. -/
def wb (l r : Option Char) : Bool := owc l != owc r

/-- Backtracking for `T{2,}\b`: `rt` is the reversed current candidate run,
`after` the rest of the input.  Greedy: the full run is tried first and one
character is given back per step, exactly the order CPython tries
quantifier lengths.  Returns the matched TLD and the remaining input. -/
def tldGo : List Char → List Char → Option (List Char × List Char)
  | rt, after =>
    if 2 ≤ rt.length && wb rt.head? after.head? then some (rt.reverse, after)
    else
      match rt with
      | [] => none
      | c :: rt' => tldGo rt' (c :: after)

/-- All ways to split `l` as `pre ++ '.' :: post` with `pre` made of domain
characters, longest `pre` first — the positions `D+\.` can backtrack
through, in the order the regex engine tries them. -/
def dotSplits : List Char → List (List Char × List Char)
  | [] => []
  | c :: cs =>
    (if dch c then (dotSplits cs).map (fun pq => (c :: pq.1, pq.2)) else []) ++
      (if c = '.' then [([], cs)] else [])

/-- `D+\.T{2,}\b` on the input after `'@'`: try each dot split (greedy on
the `D+` length), and for each, the greedy TLD lengths.  Returns the domain
part before the dot, the TLD, and the remaining input. -/
def domTry (tc : Char → Bool) (splits : List (List Char × List Char)) :
    Option (List Char × List Char × List Char) :=
  splits.findSome? fun pq =>
    if pq.1.isEmpty then none
    else
      let run := pq.2.takeWhile tc
      let rest := pq.2.dropWhile tc
      (tldGo run.reverse rest).map fun tr => (pq.1, tr.1, tr.2)

/-- One attempt of `EMAIL_PATTERN` anchored at the current position.
`prev` is the character just before the position (`none` at the start of
the input).  Returns the matched substring and the remaining input. -/
def matchAttempt (tc : Char → Bool) (prev : Option Char) (s : List Char) :
    Option (List Char × List Char) :=
  if wb prev s.head? then
    let locals := s.takeWhile lch
    if locals.isEmpty then none
    else
      match s.dropWhile lch with
      | [] => none
      | a :: rest2 =>
        if a = '@' then
          match domTry tc (dotSplits rest2) with
          | some (d, t, rest) => some (locals ++ '@' :: (d ++ '.' :: t), rest)
          | none => none
        else none
  else none

/-- `re.findall`: scan left to right, resume after each match.  `fuel` only
serves structural termination; every step consumes at least one character,
so `fuel = s.length` never runs out. -/
def scanAux (tc : Char → Bool) : Nat → Option Char → List Char → List (List Char)
  | 0, _, _ => []
  | _ + 1, _, [] => []
  | fuel + 1, prev, c :: cs =>
    match matchAttempt tc prev (c :: cs) with
    | some (m, rest) => m :: scanAux tc fuel m.getLast? rest
    | none => scanAux tc fuel (some c) cs

/-- All matches of the pattern in `body`, in scan order. -/
def findallEmails (tc : Char → Bool) (body : List Char) : List (List Char) :=
  scanAux tc body.length none body

/-- `set(EMAIL_PATTERN.findall(response.text))` (line 51): the matches of
the pattern as typed in the code, deduplicated. -/
def extract_emails (body : List Char) : List (List Char) :=
  (findallEmails tch body).dedup

/-- The same extraction with the TLD class the spec's pattern states
(`[A-Za-z]` instead of the code's `[A-Z|a-z]`); named after the spec for
comparison with `extract_emails`. -/
def extract_emails_spec (body : List Char) : List (List Char) :=
  (findallEmails tchSpec body).dedup

/-!
## Filtering (`find_emails_on_page`, lines 54-76)

For each extracted address: reject when the lowercased address contains a
blocklist substring, then accept when the address domain (after `'@'`) and
the page host (`url.split('/')[2]`) are substrings of one another or the
address domain splits into at least two dot-separated labels.
-/

/-- The blocklist substrings of lines 58-63. -/
def blocklist : List (List Char) :=
  [lc "example.com", lc "test.com", lc "placeholder", lc "yoursite",
   lc "yourdomain", lc "sampleemail", lc "noreply", lc "no-reply",
   lc "donotreply", lc "do-not-reply", lc "admin@admin", lc "test@test",
   lc "user@user", lc "email@email", lc "support@example", lc "info@example",
   lc "contact@example"]

/-- `any(x in email_lower for x in [...])`. -/
def blocklisted (emailLower : List Char) : Bool :=
  blocklist.any fun x => hasSub x emailLower

/-- `email_lower.split('@')[1] if '@' in email_lower else ''`. -/
def email_domain_of (emailLower : List Char) : List Char :=
  match splitChar '@' emailLower with
  | _ :: d :: _ => d
  | _ => []

/-- `url.split('/')[2] if len(url.split('/')) > 2 else ''` — the host part
of a URL (used both at line 66 and at line 126). -/
def url_host (url : List Char) : List Char :=
  let parts := splitChar '/' url
  if 2 < parts.length then parts.getD 2 [] else []

/-- The per-address filter of lines 55-74: blocklist rejection followed by
the domain-affinity check against the source URL's host (lowercased at
line 66). -/
def accept (url email : List Char) : Bool :=
  let el := lowerL email
  if blocklisted el then false
  else
    let edom := email_domain_of el
    let wdom := lowerL (url_host url)
    !edom.isEmpty &&
      (hasSub edom wdom || hasSub wdom edom ||
        2 ≤ (splitChar '.' edom).length)

/-- The pure core of `find_emails_on_page` on an already-fetched `body`:
`list(set(filtered_emails))` over the extracted set (line 76). -/
def find_emails_pure (url body : List Char) : List (List Char) :=
  ((extract_emails body).filter (accept url)).dedup

/-!
## `clean_company_name` (lines 21-31)
-/

/-- The ordered suffix list of line 26. -/
def suffixes : List (List Char) :=
  [lc " LLC", lc " Inc", lc " Corp", lc " Corporation", lc " Ltd",
   lc " Limited", lc " Co", lc " Company"]

/-- The `for suffix in suffixes:` loop of lines 27-29: `name` is replaced
by `name[:-len(suffix)].strip()` whenever its uppercasing ends with the
uppercased suffix; the loop visits every suffix once, with no break. -/
def strip_suffixes : List (List Char) → List Char → List Char
  | [], name => name
  | suf :: rest, name =>
    strip_suffixes rest
      (if (upperL suf).isSuffixOf (upperL name) then
        trimL (name.take (name.length - suf.length))
      else name)

/-- `clean_company_name`: `None` on a blank name, else the stripped name,
or `None` when stripping left nothing (line 31).  The Python `pd.isna` /
`is None` guards are subsumed by the blank check for string input. -/
def clean_company_name (name : List Char) : Option (List Char) :=
  if trimL name = [] then none
  else
    let n := strip_suffixes suffixes (trimL name)
    if n = [] then none else some n

/-!
## `search_company_website` (lines 88-163)

Network responses are oracle arguments: `responses` maps each query string
to `some` list of anchor hrefs (an HTTP-200 result page) or `none`
(non-200 status or exception), and `google` is the anchor list of the
fallback Google results page, or `none` when that request failed.
-/

/-- The exclusion substrings of line 124. -/
def excluded_domains : List (List Char) :=
  [lc "duckduckgo.com", lc "google.com", lc "bing.com", lc "yahoo.com",
   lc "facebook.com", lc "twitter.com", lc "linkedin.com", lc "instagram.com"]

/-- `any(x in href.lower() for x in [...])` (line 124): the exclusion test
of the primary loop, a substring test over the whole lowercased href. -/
def href_excluded (href : List Char) : Bool :=
  excluded_domains.any fun x => hasSub x (lowerL href)

/-- The full per-anchor test of lines 124-129: nonempty, starts with
`http`, not excluded, and the host looks like a real website (contains a
dot and is longer than 3). -/
def valid_candidate (href : List Char) : Bool :=
  !href.isEmpty && (lc "http").isPrefixOf href && !href_excluded href &&
    (let domain := url_host href
     domain.contains '.' && 3 < domain.length)

/-- The anchor scan of lines 122-129: the first href passing all checks. -/
def first_valid (hrefs : List (List Char)) : Option (List Char) :=
  hrefs.find? valid_candidate

/-- The four query templates of lines 103-108. -/
def search_queries (cleanName : List Char) : List (List Char) :=
  [lc "\"" ++ cleanName ++ lc "\" website",
   cleanName ++ lc " official site",
   cleanName ++ lc " company website",
   cleanName]

/-- The primary query loop of lines 110-136: for each query in order, on a
successful response scan its anchors and return the first valid candidate;
failed queries (non-200 or exception) are skipped. -/
def primary_search (cleanName : List Char)
    (responses : List Char → Option (List (List Char))) : Option (List Char) :=
  (search_queries cleanName).findSome? fun q => (responses q).bind first_valid

/-- The platform check of the Google fallback (line 152): only four
excluded substrings, tested on the whole lowercased URL. -/
def google_platform_ok (u : List Char) : Bool :=
  !((([lc "google.com", lc "facebook.com", lc "twitter.com",
      lc "linkedin.com"]).any fun x => hasSub x (lowerL u)))

/-- One anchor of the Google fallback (lines 147-154): when the href
contains `/url?q=`, extract `href.split('/url?q=')[1].split('&')[0]` and
return it if it starts with `http` and passes the platform check. -/
def google_candidate (href : List Char) : Option (List Char) :=
  match dropAfterSeq (lc "/url?q=") href with
  | none => none
  | some tail =>
    let actual := (takeBeforeSeq (lc "/url?q=") tail).takeWhile fun c => c ≠ '&'
    if (lc "http").isPrefixOf actual && google_platform_ok actual then
      some actual
    else none

/-- `search_company_website` as a function of its two oracles: empty-name
guard (line 91), name cleaning (lines 94-96), the primary loop, then the
Google fallback (lines 138-156), else `None`. -/
def search_company_website_core (name : List Char)
    (responses : List Char → Option (List (List Char)))
    (google : Option (List (List Char))) : Option (List Char) :=
  if name = [] then none
  else
    match clean_company_name name with
    | none => none
    | some c =>
      match primary_search c responses with
      | some u => some u
      | none =>
        match google with
        | none => none
        | some hrefs => hrefs.findSome? google_candidate

/-!
## `find_company_email` (lines 165-221)

The body of the function runs inside one `try`; its `except Exception`
boundary (lines 219-221) converts any escaping exception into the result
`(None, "Error: <message>")`.  The flow is embedded in `Except`: the two
oracles may raise (`Except.error` with the exception message), and
`find_company_email_catch` is the boundary.  The per-contact-page `try` of
lines 200-214 swallows errors and moves to the next path.
-/

/-- The contact-page paths of lines 192-198, in order. -/
def contact_pages : List (List Char) :=
  [lc "/contact", lc "/contact-us", lc "/contactus", lc "/contact_us",
   lc "/about", lc "/about-us", lc "/aboutus", lc "/about_us",
   lc "/team", lc "/staff", lc "/people",
   lc "/info", lc "/information",
   lc "/support", lc "/help"]

/-- The probe loop of lines 200-214: for each path in order, fetch
`base ++ path`; a per-path exception is swallowed (`except ... continue`);
on the first non-empty e-mail list return its first element and the page
URL.  `fetch` abstracts `find_emails_on_page`. -/
def probe_pages (fetch : List Char → Except (List Char) (List (List Char)))
    (base : List Char) : List (List Char) → Option (List Char × List Char)
  | [] => none
  | p :: ps =>
    match fetch (base ++ p) with
    | .error _ => probe_pages fetch base ps
    | .ok [] => probe_pages fetch base ps
    | .ok (e :: _) => some (e, base ++ p)

/-- The body of `find_company_email` inside its `try` (lines 167-217):
empty-name guard, website resolution, main page, contact-page fallback,
"no emails" result.  `search` abstracts `search_company_website` and
`fetch` abstracts `find_emails_on_page`; either may raise. -/
def find_company_email_run (name : List Char)
    (search : Except (List Char) (Option (List Char)))
    (fetch : List Char → Except (List Char) (List (List Char))) :
    Except (List Char) (Option (List Char) × Option (List Char)) :=
  if name = [] then .ok (none, none)
  else
    match search with
    | .error e => .error e
    | .ok none => .ok (none, some (lc "No website found"))
    | .ok (some website) =>
      match fetch website with
      | .error e => .error e
      | .ok (e :: _) => .ok (some e, some (lc "Main page: " ++ website))
      | .ok [] =>
        let base := rstripSlash website
        match probe_pages fetch base contact_pages with
        | some (em, u) => .ok (some em, some (lc "Contact page: " ++ u))
        | none => .ok (none, some (lc "No emails found on " ++ website))

/-- `find_company_email` with its `except Exception` boundary of lines
219-221: an escaping exception becomes `(None, "Error: <message>")`. -/
def find_company_email_catch (name : List Char)
    (search : Except (List Char) (Option (List Char)))
    (fetch : List Char → Except (List Char) (List (List Char))) :
    Option (List Char) × Option (List Char) :=
  match find_company_email_run name search fetch with
  | .ok r => r
  | .error e => (none, some (lc "Error: " ++ e))

/-- `find_company_email` on non-raising oracles (the shape the actual
sub-functions have: both catch their own exceptions internally). -/
def find_company_email_pure (name : List Char) (website : Option (List Char))
    (fetch : List Char → List (List Char)) :
    Option (List Char) × Option (List Char) :=
  find_company_email_catch name (.ok website) fun u => .ok (fetch u)

example : extract_emails (lc "contact us at a@b.com or noreply@b.com") =
    [lc "a@b.com", lc "noreply@b.com"] := by decide

example : extract_emails (lc "a@b.co|de") = [lc "a@b.co|de"] := by decide

example : extract_emails_spec (lc "a@b.co|de") = [lc "a@b.co"] := by decide

example : extract_emails (lc "aa@bb.cc@dd.ee") = [lc "aa@bb.cc"] := by decide

example : find_emails_pure (lc "https://b.com")
    (lc "contact us at a@b.com or noreply@b.com") = [lc "a@b.com"] := by decide

example : clean_company_name (lc "Acme Corp") = some (lc "Acme") := by decide

example : clean_company_name (lc "Acme, LLC") = some (lc "Acme,") := by decide

example : clean_company_name (lc "Acme Ltd Inc") = some (lc "Acme") := by decide

example : clean_company_name (lc "  ") = none := by decide

/-!
## Helper lemmas
-/

theorem char_toNat_ofNat {n : Nat} (h : n.isValidChar) : (Char.ofNat n).toNat = n := by
  rw [Char.ofNat, dif_pos h]
  simp [Char.ofNatAux, Char.toNat, UInt32.toNat, BitVec.toNat_ofNatLt]

/-- ASCII lowercasing never produces `'@'` from another character. -/
theorem toLower_eq_at {c : Char} (h : Char.toLower c = '@') : c = '@' := by
  simp only [Char.toLower] at h
  split at h
  · next hc =>
      have h2 := congrArg Char.toNat h
      rw [char_toNat_ofNat (Or.inl (by omega))] at h2
      have h3 : Char.toNat '@' = 64 := by decide
      omega
  · exact h

theorem lowerL_append (a b : List Char) :
    lowerL (a ++ b) = lowerL a ++ lowerL b := List.map_append _ a b

theorem at_not_mem_lowerL {l : List Char} (h : '@' ∉ l) : '@' ∉ lowerL l := by
  intro hm
  rcases List.mem_map.1 hm with ⟨c, hc, hlc⟩
  exact h (toLower_eq_at hlc ▸ hc)

theorem takeWhile_append_of_all {p : Char → Bool} {a : List Char} (b : List Char)
    (h : ∀ c ∈ a, p c = true) : (a ++ b).takeWhile p = a ++ b.takeWhile p := by
  induction a with
  | nil => rfl
  | cons x xs ih =>
    simp only [List.cons_append, List.takeWhile_cons, h x (by simp)]
    simp [ih fun c hc => h c (by simp [hc])]

theorem dropWhile_append_of_all {p : Char → Bool} {a : List Char} (b : List Char)
    (h : ∀ c ∈ a, p c = true) : (a ++ b).dropWhile p = b.dropWhile p := by
  induction a with
  | nil => rfl
  | cons x xs ih =>
    simp only [List.cons_append, List.dropWhile_cons, h x (by simp)]
    exact ih fun c hc => h c (by simp [hc])

theorem splitChar_ne_nil (sep : Char) (l : List Char) : splitChar sep l ≠ [] := by
  cases l with
  | nil => simp [splitChar]
  | cons c cs =>
    by_cases h : c = sep
    · simp [splitChar, h]
    · simp only [splitChar, if_neg h]
      rcases hs : splitChar sep cs with _ | ⟨p, ps⟩ <;> simp

theorem splitChar_of_not_mem {sep : Char} {l : List Char} (h : sep ∉ l) :
    splitChar sep l = [l] := by
  induction l with
  | nil => rfl
  | cons c cs ih =>
    have hc : ¬c = sep := fun he => h (he ▸ List.mem_cons_self c cs)
    have hcs : sep ∉ cs := fun hm => h (List.mem_cons_of_mem c hm)
    simp only [splitChar, if_neg hc, ih hcs]

/-- Splitting at the only occurrence of the separator. -/
theorem splitChar_append_cons {sep : Char} {a b : List Char}
    (ha : sep ∉ a) (hb : sep ∉ b) : splitChar sep (a ++ sep :: b) = [a, b] := by
  induction a with
  | nil => simp [splitChar, splitChar_of_not_mem hb]
  | cons x xs ih =>
    have hx : ¬x = sep := fun he => ha (he ▸ List.mem_cons_self x xs)
    have hxs : sep ∉ xs := fun hm => ha (List.mem_cons_of_mem x hm)
    simp only [List.cons_append, splitChar, if_neg hx]
    rw [show xs.append (sep :: b) = xs ++ sep :: b from rfl, ih hxs]

theorem two_le_splitChar_of_mem {sep : Char} {l : List Char} (h : sep ∈ l) :
    2 ≤ (splitChar sep l).length := by
  induction l with
  | nil => simp at h
  | cons c cs ih =>
    by_cases hc : c = sep
    · simp only [splitChar, if_pos hc, List.length_cons]
      have := splitChar_ne_nil sep cs
      have : 0 < (splitChar sep cs).length := List.length_pos.2 this
      omega
    · have hm : sep ∈ cs := by
        rcases List.mem_cons.1 h with h1 | h1
        · exact absurd h1.symm hc
        · exact h1
      simp only [splitChar, if_neg hc]
      rcases hs : splitChar sep cs with _ | ⟨p, ps⟩
      · exact absurd hs (splitChar_ne_nil sep cs)
      · have := ih hm
        rw [hs] at this
        simpa using this

theorem splitChar_head_split {sep : Char} :
    ∀ {l q : List Char} {qs : List (List Char)},
      splitChar sep l = q :: qs → ∃ y, l = q ++ y := by
  intro l
  induction l with
  | nil =>
    intro q qs h
    simp only [splitChar] at h
    exact ⟨[], by simp [← (List.cons.injEq .. ▸ h).1]⟩
  | cons c cs ih =>
    intro q qs h
    by_cases hc : c = sep
    · simp only [splitChar, if_pos hc] at h
      exact ⟨c :: cs, by simp [← (List.cons.injEq .. ▸ h).1]⟩
    · simp only [splitChar, if_neg hc] at h
      rcases hs : splitChar sep cs with _ | ⟨p, ps⟩
      · exact absurd hs (splitChar_ne_nil sep cs)
      · rw [hs] at h
        rcases ih hs with ⟨y, hy⟩
        have hq : q = c :: p := ((List.cons.injEq .. ▸ h).1).symm
        exact ⟨y, by simp [hq, hy]⟩

theorem mem_splitChar_exists {sep : Char} :
    ∀ {l p : List Char}, p ∈ splitChar sep l → ∃ x y, l = x ++ p ++ y := by
  intro l
  induction l with
  | nil =>
    intro p h
    simp only [splitChar, List.mem_singleton] at h
    exact ⟨[], [], by simp [h]⟩
  | cons c cs ih =>
    intro p h
    by_cases hc : c = sep
    · simp only [splitChar, if_pos hc, List.mem_cons] at h
      rcases h with h | h
      · exact ⟨[], c :: cs, by simp [h]⟩
      · rcases ih h with ⟨x, y, hxy⟩
        exact ⟨c :: x, y, by simp [hxy]⟩
    · simp only [splitChar, if_neg hc] at h
      rcases hs : splitChar sep cs with _ | ⟨q, qs⟩
      · exact absurd hs (splitChar_ne_nil sep cs)
      · rw [hs] at h
        rcases List.mem_cons.1 h with h1 | h1
        · rcases splitChar_head_split hs with ⟨y, hy⟩
          exact ⟨[], y, by simp [h1, hy]⟩
        · rcases ih (hs ▸ List.mem_cons_of_mem q h1) with ⟨x, y, hxy⟩
          exact ⟨c :: x, y, by simp [hxy]⟩

theorem hasSub_of_isPrefixOf {p l : List Char} (h : p.isPrefixOf l = true) :
    hasSub p l = true := by
  cases l with
  | nil => simpa [hasSub] using h
  | cons c t => simp [hasSub, h]

theorem isPrefixOf_append_self : ∀ p y : List Char,
    p.isPrefixOf (p ++ y) = true := by
  intro p y
  induction p with
  | nil => simp [List.isPrefixOf]
  | cons c cs ih => simp [List.isPrefixOf, ih]

theorem hasSub_of_append {p x y l : List Char} (h : l = x ++ p ++ y) :
    hasSub p l = true := by
  subst h
  induction x with
  | nil =>
    exact hasSub_of_isPrefixOf (isPrefixOf_append_self p y)
  | cons c cs ih =>
    cases p with
    | nil => simp_all [hasSub]
    | cons a as =>
      have hg : (c :: cs) ++ (a :: as) ++ y = c :: (cs ++ (a :: as) ++ y) := by
        simp
      rw [hg, hasSub, ih, Bool.or_true]

/-!
## Soundness of the matcher

Every string the matcher returns decomposes as
`local-part ++ '@' :: domain ++ '.' :: tld` with the parts drawn from the
pattern's character classes.
-/

/-- The shape of a string in the language
`L+ @ D+ \. T{2,}` of `EMAIL_PATTERN` (TLD class `tc`). -/
def EmailShape (tc : Char → Bool) (e : List Char) : Prop :=
  ∃ l d t : List Char,
    e = l ++ '@' :: (d ++ '.' :: t) ∧
    l ≠ [] ∧ (∀ c ∈ l, lch c = true) ∧
    d ≠ [] ∧ (∀ c ∈ d, dch c = true) ∧
    2 ≤ t.length ∧ (∀ c ∈ t, tc c = true)

theorem dotSplits_sound :
    ∀ {l : List Char} {pq : List Char × List Char}, pq ∈ dotSplits l →
      l = pq.1 ++ '.' :: pq.2 ∧ ∀ c ∈ pq.1, dch c = true := by
  intro l
  induction l with
  | nil => intro pq h; simp [dotSplits] at h
  | cons c cs ih =>
    intro pq h
    simp only [dotSplits, List.mem_append] at h
    rcases h with h | h
    · by_cases hd : dch c
      · rw [if_pos hd] at h
        rcases List.mem_map.1 h with ⟨pq', hpq', he⟩
        rcases ih hpq' with ⟨h1, h2⟩
        subst he
        refine ⟨by simp [h1], ?_⟩
        intro x hx
        rcases List.mem_cons.1 hx with hx | hx
        · exact hx ▸ hd
        · exact h2 x hx
      · rw [if_neg hd] at h; simp at h
    · by_cases hc : c = '.'
      · rw [if_pos hc] at h
        simp only [List.mem_singleton] at h
        subst h
        exact ⟨by simp [hc], by simp⟩
      · rw [if_neg hc] at h; simp at h

theorem tldGo_sound {P : Char → Bool} :
    ∀ {rt after t rest : List Char},
      (∀ c ∈ rt, P c = true) → tldGo rt after = some (t, rest) →
      2 ≤ t.length ∧ (∀ c ∈ t, P c = true) ∧ rt.reverse ++ after = t ++ rest := by
  intro rt
  induction rt with
  | nil =>
    intro after t rest _ h
    simp [tldGo] at h
  | cons c rt' ih =>
    intro after t rest hP h
    rw [tldGo] at h
    split at h
    · next hc =>
      simp only [Option.some.injEq, Prod.mk.injEq] at h
      obtain ⟨h1, h2⟩ := h
      subst h1; subst h2
      simp only [Bool.and_eq_true, decide_eq_true_eq] at hc
      refine ⟨by simpa using hc.1, ?_, rfl⟩
      intro x hx
      exact hP x (List.mem_reverse.1 hx)
    · have h' := ih (fun x hx => hP x (List.mem_cons_of_mem c hx)) h
      refine ⟨h'.1, h'.2.1, ?_⟩
      rw [← h'.2.2]
      simp

theorem domTry_sound {tc : Char → Bool} {rest2 d t rest : List Char}
    (h : domTry tc (dotSplits rest2) = some (d, t, rest)) :
    rest2 = d ++ '.' :: (t ++ rest) ∧ d ≠ [] ∧ (∀ c ∈ d, dch c = true) ∧
      2 ≤ t.length ∧ (∀ c ∈ t, tc c = true) := by
  rcases List.exists_of_findSome?_eq_some h with ⟨pq, hmem, hpq⟩
  rcases dotSplits_sound hmem with ⟨hsplit, hdch⟩
  by_cases he : pq.1.isEmpty
  · rw [if_pos he] at hpq; simp at hpq
  · rw [if_neg he] at hpq
    dsimp only at hpq
    rcases hg : tldGo (pq.2.takeWhile tc).reverse (pq.2.dropWhile tc)
      with _ | ⟨t', rest'⟩
    · rw [hg] at hpq; simp at hpq
    · rw [hg] at hpq
      simp only [Option.map_some', Option.some.injEq, Prod.mk.injEq] at hpq
      obtain ⟨h1, h2, h3⟩ := hpq
      subst h1; subst h2; subst h3
      have hrun : ∀ c ∈ (pq.2.takeWhile tc).reverse, tc c = true := by
        intro c hc
        exact List.mem_takeWhile_imp (List.mem_reverse.1 hc)
      rcases tldGo_sound hrun hg with ⟨hlen, hall, heq⟩
      rw [List.reverse_reverse, List.takeWhile_append_dropWhile] at heq
      refine ⟨?_, fun hn => he (by simp [hn]), hdch, hlen, hall⟩
      rw [hsplit, heq]

theorem matchAttempt_sound {tc : Char → Bool} {prev : Option Char}
    {s m rest : List Char} (h : matchAttempt tc prev s = some (m, rest)) :
    EmailShape tc m ∧ s = m ++ rest := by
  rw [matchAttempt] at h
  split at h
  · by_cases he : (s.takeWhile lch).isEmpty
    · rw [if_pos he] at h; simp at h
    · rw [if_neg he] at h
      rcases hdw : s.dropWhile lch with _ | ⟨a, rest2⟩
      · rw [hdw] at h; simp at h
      · rw [hdw] at h
        dsimp only at h
        by_cases ha : a = '@'
        · rw [if_pos ha] at h
          subst ha
          rcases hdt : domTry tc (dotSplits rest2) with _ | ⟨d, t, r⟩
          · rw [hdt] at h; simp at h
          · rw [hdt] at h
            simp only [Option.some.injEq, Prod.mk.injEq] at h
            obtain ⟨h1, h2⟩ := h
            subst h1; subst h2
            rcases domTry_sound hdt with ⟨hr2, hd, hdch, hlen, htc⟩
            constructor
            · refine ⟨s.takeWhile lch, d, t, rfl, fun hn => he (by simp [hn]),
                fun c hc => List.mem_takeWhile_imp hc, hd, hdch, hlen, htc⟩
            · conv_lhs => rw [← List.takeWhile_append_dropWhile lch s]
              rw [hdw, hr2]
              simp
        · rw [if_neg ha] at h
          simp at h
  · simp at h

theorem scanAux_sound {tc : Char → Bool} :
    ∀ (fuel : Nat) (prev : Option Char) (s e : List Char),
      e ∈ scanAux tc fuel prev s → EmailShape tc e := by
  intro fuel
  induction fuel with
  | zero => intro prev s e he; simp [scanAux] at he
  | succ n ih =>
    intro prev s e he
    cases s with
    | nil => simp [scanAux] at he
    | cons c cs =>
      rw [scanAux] at he
      rcases hm : matchAttempt tc prev (c :: cs) with _ | ⟨m, rest⟩
      · rw [hm] at he
        exact ih _ _ _ he
      · rw [hm] at he
        rcases List.mem_cons.1 he with he | he
        · exact he ▸ (matchAttempt_sound hm).1
        · exact ih _ _ _ he

/-- Every extracted address has the pattern's shape. -/
theorem extract_emails_sound {body e : List Char} (h : e ∈ extract_emails body) :
    EmailShape tch e :=
  scanAux_sound _ _ _ _ (List.mem_dedup.1 h)

/-- Every character of a shaped address lies in one of the pattern's
classes (or is the `'@'` / `'.'` separator). -/
theorem EmailShape.chars {tc : Char → Bool} {e : List Char}
    (h : EmailShape tc e) :
    ∀ c ∈ e, lch c = true ∨ c = '@' ∨ dch c = true ∨ c = '.' ∨ tc c = true := by
  rcases h with ⟨l, d, t, he, _, hl, _, hd, _, ht⟩
  subst he
  intro c hc
  simp only [List.mem_append, List.mem_cons] at hc
  rcases hc with hc | hc | hc | hc | hc
  · exact Or.inl (hl c hc)
  · exact Or.inr (Or.inl hc)
  · exact Or.inr (Or.inr (Or.inl (hd c hc)))
  · exact Or.inr (Or.inr (Or.inr (Or.inl hc)))
  · exact Or.inr (Or.inr (Or.inr (Or.inr (ht c hc))))

/-- For a shaped address, the domain computed by the filter — everything
after the (unique) `'@'` of the lowercased address — is the lowercased
`d ++ '.' :: t` part. -/
theorem email_domain_of_shape {tc : Char → Bool} {l d t : List Char}
    (hl : ∀ c ∈ l, lch c = true) (hd : ∀ c ∈ d, dch c = true)
    (ht : ∀ c ∈ t, tc c = true) (htc : tc '@' = false) :
    email_domain_of (lowerL (l ++ '@' :: (d ++ '.' :: t))) =
      lowerL (d ++ '.' :: t) := by
  have hal : '@' ∉ l := fun hm => by
    have := hl '@' hm
    simp [lch, Char.isAlpha, Char.isUpper, Char.isLower, Char.isDigit] at this
  have har : '@' ∉ d ++ '.' :: t := by
    intro hm
    simp only [List.mem_append, List.mem_cons] at hm
    rcases hm with hm | hm | hm
    · have := hd '@' hm
      simp [dch, Char.isAlpha, Char.isUpper, Char.isLower, Char.isDigit] at this
    · exact absurd hm.symm (by decide)
    · exact absurd (ht '@' hm) (by simp [htc])
  have : lowerL (l ++ '@' :: (d ++ '.' :: t)) =
      lowerL l ++ '@' :: lowerL (d ++ '.' :: t) := by
    rw [lowerL_append]
    have : Char.toLower '@' = '@' := by decide
    simp [lowerL, this]
  rw [this, email_domain_of,
    splitChar_append_cons (at_not_mem_lowerL hal) (at_not_mem_lowerL har)]

/-- On any address of the pattern's shape, the domain-affinity check of
lines 64-73 always succeeds (the domain always has at least two
dot-separated labels), so `accept` reduces to the blocklist test alone. -/
theorem accept_of_shape {url e : List Char} (h : EmailShape tch e) :
    accept url e = !blocklisted (lowerL e) := by
  rcases h with ⟨l, d, t, he, hlne, hl, hdne, hd, hlen, ht⟩
  subst he
  by_cases hb : blocklisted (lowerL (l ++ '@' :: (d ++ '.' :: t))) = true
  · simp [accept, hb]
  · rw [Bool.not_eq_true] at hb
    have hdom := email_domain_of_shape hl hd ht (by decide)
    have hmem : '.' ∈ lowerL (d ++ '.' :: t) :=
      List.mem_map.2 ⟨'.', by simp, by decide⟩
    have hlabels : 2 ≤ (splitChar '.' (lowerL (d ++ '.' :: t))).length :=
      two_le_splitChar_of_mem hmem
    have hne : (lowerL (d ++ '.' :: t)).isEmpty = false := by
      rcases hemp : (lowerL (d ++ '.' :: t)) with _ | ⟨x, xs⟩
      · rw [hemp] at hmem; simp at hmem
      · simp
    simp [accept, hb, hdom, hlabels, hne]

/-!
## Further helper definitions and lemmas for the claims
-/

/-- The single left-to-right pass over the suffix list described by the
amended claim C2: a fold over the fixed ordered suffix list, stripping the
suffix (and trimming) whenever the current name ends with it
case-insensitively — at most once per listed suffix. -/
def clean_pass (name : List Char) : Option (List Char) :=
  if trimL name = [] then none
  else
    let r := suffixes.foldl
      (fun n suf =>
        if (upperL suf).isSuffixOf (upperL n) then
          trimL (n.take (n.length - suf.length))
        else n)
      (trimL name)
    if r = [] then none else some r

theorem strip_suffixes_eq_foldl :
    ∀ (l : List (List Char)) (name : List Char),
      strip_suffixes l name = l.foldl
        (fun n suf =>
          if (upperL suf).isSuffixOf (upperL n) then
            trimL (n.take (n.length - suf.length))
          else n) name := by
  intro l
  induction l with
  | nil => intro name; rfl
  | cons s rest ih => intro name; rw [strip_suffixes, List.foldl_cons, ih]

/-- `clean_company_name` never returns `some []` (line 31's guard). -/
theorem clean_company_name_ne_empty {name s : List Char}
    (h : clean_company_name name = some s) : s ≠ [] := by
  rw [clean_company_name] at h
  split at h
  · simp at h
  · dsimp only at h
    split at h
    · simp at h
    · next hne => simpa using (Option.some.injEq .. ▸ h) ▸ hne

/-- Any URL the primary loop returns passed the full per-anchor test. -/
theorem primary_search_valid {c u : List Char}
    {responses : List Char → Option (List (List Char))}
    (h : primary_search c responses = some u) : valid_candidate u = true := by
  rcases List.exists_of_findSome?_eq_some h with ⟨q, _, hq⟩
  rcases Option.bind_eq_some.1 hq with ⟨hrefs, _, hfind⟩
  exact List.find?_some hfind

/-- Any URL the Google fallback returns starts with `http` and passed the
(four-domain) platform check. -/
theorem google_fallback_ok {hrefs : List (List Char)} {u : List Char}
    (h : hrefs.findSome? google_candidate = some u) :
    (lc "http").isPrefixOf u = true ∧ google_platform_ok u = true := by
  rcases List.exists_of_findSome?_eq_some h with ⟨href, _, hc⟩
  rw [google_candidate] at hc
  split at hc
  · simp at hc
  · dsimp only at hc
    split at hc
    · next hcond =>
      simp only [Option.some.injEq] at hc
      subst hc
      exact ⟨(Bool.and_eq_true .. ▸ hcond).1, (Bool.and_eq_true .. ▸ hcond).2⟩
    · simp at hc

/-- Any URL `search_company_website` returns comes from the primary loop
or, when that loop found nothing, from the Google fallback. -/
theorem search_core_cases {name u : List Char}
    {responses : List Char → Option (List (List Char))}
    {google : Option (List (List Char))}
    (h : search_company_website_core name responses google = some u) :
    ∃ c, clean_company_name name = some c ∧
      (primary_search c responses = some u ∨
        (primary_search c responses = none ∧
          ∃ hrefs, google = some hrefs ∧
            hrefs.findSome? google_candidate = some u)) := by
  rw [search_company_website_core.eq_def] at h
  split at h
  · simp at h
  · split at h
    · simp at h
    · next c hc =>
      refine ⟨c, hc, ?_⟩
      rcases hp : primary_search c responses with _ | v
      · rw [hp] at h
        rcases hg : google with _ | hrefs
        · rw [hg] at h; simp at h
        · rw [hg] at h
          exact Or.inr ⟨rfl, hrefs, rfl, h⟩
      · rw [hp] at h
        simp only [Option.some.injEq] at h
        exact Or.inl (by rw [h])

/-- Skipping prefix queries that yield nothing. -/
theorem findSome?_append_of_none {α β : Type} {f : α → Option β}
    {l1 l2 : List α} (h : ∀ x ∈ l1, f x = none) :
    (l1 ++ l2).findSome? f = l2.findSome? f := by
  rw [List.findSome?_append, List.findSome?_eq_none_iff.2 h, Option.none_or]

/-- Skipping prefix contact pages that yield no e-mails. -/
theorem probe_pages_append {fetch : List Char → Except (List Char) (List (List Char))}
    {base : List Char} {pre rest : List (List Char)}
    (h : ∀ q ∈ pre, fetch (base ++ q) = Except.ok []) :
    probe_pages fetch base (pre ++ rest) = probe_pages fetch base rest := by
  induction pre with
  | nil => rfl
  | cons p ps ih =>
    rw [List.cons_append, probe_pages, h p (by simp)]
    exact ih fun q hq => h q (by simp [hq])

/-!
## Claims
-/

/-- Claim C1 (counterexample).  The claim — extraction returns exactly the
set of word-boundary-delimited substrings matching
`[A-Za-z0-9._%+-]+@[A-Za-z0-9.-]+\.[A-Za-z]{2,}`, and nothing outside that
language — fails twice.  (1) On body `"a@b.co|de"` the code extracts
`"a@b.co|de"`: the TLD class is typed `[A-Z|a-z]`, which also contains
`'|'`, so the extracted string lies outside the spec pattern's language
(under the spec's TLD class the same matcher yields `"a@b.co"`).  (2) On
body `"aa@bb.cc@dd.ee"` the substring `"cc@dd.ee"` is word-boundary
delimited and matches the spec pattern, yet `findall` — leftmost
non-overlapping matches — returns only `"aa@bb.cc"`. -/
theorem C1_counterexample :
    extract_emails (lc "a@b.co|de") = [lc "a@b.co|de"] ∧
    ¬EmailShape tchSpec (lc "a@b.co|de") ∧
    extract_emails_spec (lc "a@b.co|de") = [lc "a@b.co"] ∧
    extract_emails (lc "aa@bb.cc@dd.ee") = [lc "aa@bb.cc"] ∧
    EmailShape tchSpec (lc "cc@dd.ee") ∧
    lc "aa@bb.cc@dd.ee" = lc "aa@bb." ++ lc "cc@dd.ee" ∧
    wb (some '.') (some 'c') = true ∧ wb (some 'e') none = true ∧
    lc "cc@dd.ee" ∉ extract_emails (lc "aa@bb.cc@dd.ee") := by
  refine ⟨by decide, ?_, by decide, by decide, ?_, by decide, by decide,
    by decide, by decide⟩
  · intro h
    have hc := h.chars '|' (by decide)
    rcases hc with h1 | h1 | h1 | h1 | h1 <;> revert h1 <;> decide
  · exact ⟨lc "cc", lc "dd", lc "ee", by decide, by decide, by decide,
      by decide, by decide, by decide, by decide⟩

/-- Claim C1 (amended).  The extraction step returns the leftmost
non-overlapping word-boundary-delimited matches of the pattern as typed —
`[A-Za-z0-9._%+-]+@[A-Za-z0-9.-]+\.[A-Z|a-z]{2,}` whose TLD class also
admits `'|'` — deduplicated case-sensitively: every extracted string
decomposes as local-part/`'@'`/domain/`'.'`/TLD over those classes, and
the returned list has no duplicates. -/
theorem C1_extraction_sound (body : List Char) :
    (∀ e ∈ extract_emails body, EmailShape tch e) ∧
      (extract_emails body).Nodup :=
  ⟨fun _ he => extract_emails_sound he, List.nodup_dedup _⟩

theorem C1_extraction_sound_witness :
    EmailShape tch (lc "a@b.com") ∧ (extract_emails (lc "x a@b.com")).Nodup :=
  ⟨(C1_extraction_sound (lc "x a@b.com")).1 (lc "a@b.com") (by decide),
    (C1_extraction_sound (lc "x a@b.com")).2⟩

/-- Claim C2 (counterexample).  `clean_company_name` does not strip only one
trailing suffix: the loop visits every suffix once with no break, so
`"Acme Ltd Inc"` loses `" Inc"` and then `" Ltd"`, giving `"Acme"`, not
the claimed `"Acme Ltd"`. -/
theorem C2_counterexample :
    clean_company_name (lc "Acme Ltd Inc") = some (lc "Acme") ∧
    clean_company_name (lc "Acme Ltd Inc") ≠ some (lc "Acme Ltd") := by
  exact ⟨by decide, by decide⟩

/-- Claim C2 (amended).  `clean_company_name` makes a single left-to-right
pass over the fixed ordered suffix list, stripping each suffix (and
trimming) whenever the current name ends with it case-insensitively — at
most one strip per listed suffix, but stacked suffixes hit in list order
are all removed: a single-suffix name such as `"Acme Corp"` becomes
`"Acme"`, while `"Acme Ltd Inc"` also becomes `"Acme"`. -/
theorem C2_single_pass (name : List Char) :
    clean_company_name name = clean_pass name ∧
    clean_company_name (lc "Acme Corp") = some (lc "Acme") ∧
    clean_company_name (lc "Acme Ltd Inc") = some (lc "Acme") := by
  refine ⟨?_, by decide, by decide⟩
  rw [clean_company_name, clean_pass, strip_suffixes_eq_foldl]

/-- Claim C10 (confirmed).  `clean_company_name` never returns the empty
string — blank input or stripping to nothing gives `none` — and when it
returns `none`, `search_company_website` aborts with `none` whatever the
search oracles hold. -/
theorem C10_clean_never_empty (name s : List Char)
    (responses : List Char → Option (List (List Char)))
    (google : Option (List (List Char))) :
    (clean_company_name name = some s → s ≠ []) ∧
    (clean_company_name name = none →
      search_company_website_core name responses google = none) := by
  constructor
  · exact fun h => clean_company_name_ne_empty h
  · intro h
    rw [search_company_website_core.eq_def]
    split
    · rfl
    · rw [h]

theorem C10_clean_never_empty_witness :
    lc "Acme" ≠ [] ∧
    search_company_website_core (lc "   ")
      (fun _ => some [lc "https://x.com"]) none = none :=
  ⟨(C10_clean_never_empty (lc "Acme LLC") (lc "Acme")
      (fun _ => none) none).1 (by decide),
    (C10_clean_never_empty (lc "   ") []
      (fun _ => some [lc "https://x.com"]) none).2 (by decide)⟩

/-- Claim C9 (confirmed).  `find_company_email` never propagates an
exception: when the flow inside the `try` raises `e`, the boundary of
lines 219-221 yields `(None, "Error: <e>")`; when it completes with `r`,
`r` itself is returned.  The result type is total — no error escapes. -/
theorem C9_exception_boundary (name : List Char)
    (search : Except (List Char) (Option (List Char)))
    (fetch : List Char → Except (List Char) (List (List Char))) :
    (∀ e, find_company_email_run name search fetch = .error e →
      find_company_email_catch name search fetch =
        (none, some (lc "Error: " ++ e))) ∧
    (∀ r, find_company_email_run name search fetch = .ok r →
      find_company_email_catch name search fetch = r) := by
  constructor
  · intro e he; rw [find_company_email_catch, he]
  · intro r hr; rw [find_company_email_catch, hr]

theorem C9_exception_boundary_witness :
    find_company_email_catch (lc "Acme Inc") (.error (lc "connection reset"))
      (fun _ => .ok []) = (none, some (lc "Error: connection reset")) :=
  (C9_exception_boundary (lc "Acme Inc") (.error (lc "connection reset"))
    (fun _ => .ok [])).1 (lc "connection reset") rfl

/-- Claim C7 (confirmed).  An address whose lowercased form contains a
blocklist substring is always rejected, whatever the source URL; and on
the spec's example body the extractor yields exactly
`{a@b.com, noreply@b.com}` and filtering against `https://b.com` keeps
exactly `{a@b.com}`. -/
theorem C7_blocklist_rejects (url e body : List Char)
    (h : blocklisted (lowerL e) = true) :
    accept url e = false ∧
    e ∉ find_emails_pure url body ∧
    extract_emails (lc "contact us at a@b.com or noreply@b.com") =
      [lc "a@b.com", lc "noreply@b.com"] ∧
    find_emails_pure (lc "https://b.com")
      (lc "contact us at a@b.com or noreply@b.com") = [lc "a@b.com"] := by
  have hacc : accept url e = false := by simp [accept, h]
  refine ⟨hacc, ?_, by decide, by decide⟩
  intro hm
  have hf := (List.mem_filter.1 (List.mem_dedup.1 hm)).2
  rw [hacc] at hf
  exact Bool.false_ne_true hf

theorem C7_blocklist_rejects_witness :
    accept (lc "https://b.com") (lc "noreply@b.com") = false ∧
    lc "noreply@b.com" ∉ find_emails_pure (lc "https://b.com")
      (lc "contact us at a@b.com or noreply@b.com") :=
  ⟨(C7_blocklist_rejects (lc "https://b.com") (lc "noreply@b.com")
      (lc "contact us at a@b.com or noreply@b.com") (by decide)).1,
    (C7_blocklist_rejects (lc "https://b.com") (lc "noreply@b.com")
      (lc "contact us at a@b.com or noreply@b.com") (by decide)).2.1⟩

/-- Claim C5 (confirmed).  Every extracted address has at least one dot
after its `'@'`, so the "at least two dot-separated labels" fallback of
the affinity check always fires: filtering is the blocklist test alone and
is independent of the source URL's host. -/
theorem C5_filter_independent_of_url (url url2 body : List Char) :
    find_emails_pure url body =
      ((extract_emails body).filter fun e => !blocklisted (lowerL e)).dedup ∧
    find_emails_pure url body = find_emails_pure url2 body ∧
    (∀ e ∈ extract_emails body,
      2 ≤ (splitChar '.' (email_domain_of (lowerL e))).length) := by
  have hmain : ∀ u : List Char, find_emails_pure u body =
      ((extract_emails body).filter fun e => !blocklisted (lowerL e)).dedup := by
    intro u
    rw [find_emails_pure]
    congr 1
    exact List.filter_congr fun e he => accept_of_shape (extract_emails_sound he)
  refine ⟨hmain url, (hmain url).trans (hmain url2).symm, ?_⟩
  intro e he
  rcases extract_emails_sound he with ⟨l, d, t, hee, _, hl, _, hd, _, ht⟩
  subst hee
  rw [email_domain_of_shape hl hd ht (by decide)]
  exact two_le_splitChar_of_mem (List.mem_map.2 ⟨'.', by simp, by decide⟩)

theorem C5_filter_independent_of_url_witness :
    find_emails_pure (lc "https://b.com") (lc "hi a@b.com") =
      find_emails_pure (lc "https://othersite.org") (lc "hi a@b.com") ∧
    2 ≤ (splitChar '.' (email_domain_of (lowerL (lc "a@b.com")))).length :=
  ⟨(C5_filter_independent_of_url (lc "https://b.com") (lc "https://othersite.org")
      (lc "hi a@b.com")).2.1,
    (C5_filter_independent_of_url (lc "https://b.com") (lc "https://othersite.org")
      (lc "hi a@b.com")).2.2 (lc "a@b.com") (by decide)⟩

/-- Claim C4 (confirmed).  With the homepage yielding no accepted address,
the fallback walks `contact_pages` in order against the site root with
trailing slashes stripped: writing the path list as `pre ++ p :: post`
where every page in `pre` yields nothing and `p` yields a non-empty list,
the result is that list's first address labelled
`"Contact page: <root ++ p>"` — whatever `fetch` would return on the
remaining paths `post`. -/
theorem C4_contact_page_fallback (name w : List Char)
    (fetch : List Char → List (List Char))
    (pre : List (List Char)) (p : List Char) (post : List (List Char))
    (hname : name ≠ [])
    (hmain : fetch w = [])
    (hdecomp : contact_pages = pre ++ p :: post)
    (hpre : ∀ q ∈ pre, fetch (rstripSlash w ++ q) = [])
    (hp : fetch (rstripSlash w ++ p) ≠ []) :
    find_company_email_pure name (some w) fetch =
      ((fetch (rstripSlash w ++ p)).head?,
        some (lc "Contact page: " ++ (rstripSlash w ++ p))) := by
  rcases hfp : fetch (rstripSlash w ++ p) with _ | ⟨e, es⟩
  · exact absurd hfp hp
  rw [find_company_email_pure, find_company_email_catch,
    find_company_email_run, if_neg hname]
  dsimp only
  rw [hmain]
  dsimp only
  rw [hdecomp,
    probe_pages_append fun q hq => congrArg Except.ok (hpre q hq),
    probe_pages, hfp]
  rfl

theorem C4_contact_page_fallback_witness :
    find_company_email_pure (lc "Acme") (some (lc "https://acme.com"))
      (fun u => if u = lc "https://acme.com/contact"
        then [lc "sales@acme.com"] else []) =
      (some (lc "sales@acme.com"),
        some (lc "Contact page: https://acme.com/contact")) := by
  have h := C4_contact_page_fallback (lc "Acme") (lc "https://acme.com")
    (fun u => if u = lc "https://acme.com/contact"
      then [lc "sales@acme.com"] else [])
    [] (lc "/contact")
    [lc "/contact-us", lc "/contactus", lc "/contact_us",
      lc "/about", lc "/about-us", lc "/aboutus", lc "/about_us",
      lc "/team", lc "/staff", lc "/people",
      lc "/info", lc "/information",
      lc "/support", lc "/help"]
    (by decide) (by decide) (by decide)
    (by intro q hq; simp at hq) (by decide)
  exact h.trans (by decide)

/-- Claim C6 (confirmed).  The resolver returns the first valid candidate in
strategy order: writing the query list for the cleaned name as
`qpre ++ q :: qpost` where no query of `qpre` produces a valid anchor and
`q`'s response contains one, the first valid href of `q`'s page is
returned — whatever the responses to `qpost` and whatever the Google
fallback page holds. -/
theorem C6_resolver_short_circuit (name c u : List Char)
    (responses : List Char → Option (List (List Char)))
    (google : Option (List (List Char)))
    (qpre : List (List Char)) (q : List Char) (qpost : List (List Char))
    (hname : name ≠ [])
    (hclean : clean_company_name name = some c)
    (hqs : search_queries c = qpre ++ q :: qpost)
    (hpre : ∀ q2 ∈ qpre, (responses q2).bind first_valid = none)
    (hq : (responses q).bind first_valid = some u) :
    search_company_website_core name responses google = some u := by
  have hps : primary_search c responses = some u := by
    rw [primary_search, hqs, findSome?_append_of_none hpre,
      List.findSome?_cons, hq]
  rw [search_company_website_core.eq_def, if_neg hname, hclean]
  dsimp only
  rw [hps]

theorem C6_resolver_short_circuit_witness :
    search_company_website_core (lc "Acme")
      (fun q => if q = lc "\"Acme\" website" then some []
        else if q = lc "Acme official site" then
          some [lc "https://acme.com", lc "https://othersite.com"]
        else none)
      (some [lc "/url?q=https://wrong.example&x"]) =
      some (lc "https://acme.com") := by
  exact C6_resolver_short_circuit (lc "Acme") (lc "Acme") (lc "https://acme.com")
    (fun q => if q = lc "\"Acme\" website" then some []
      else if q = lc "Acme official site" then
        some [lc "https://acme.com", lc "https://othersite.com"]
      else none)
    (some [lc "/url?q=https://wrong.example&x"])
    [lc "\"Acme\" website"] (lc "Acme official site")
    [lc "Acme company website", lc "Acme"]
    (by decide) (by decide) (by decide)
    (by intro q2 hq2; simp only [List.mem_singleton] at hq2; subst hq2; decide)
    (by decide)

/-- Claim C3 (counterexample).  The Google fallback performs no host
validation and excludes only four platform substrings, so
`search_company_website` can return a URL whose host is in the claimed
blocklist: with all primary queries failing and a Google results page
holding `/url?q=http://bing.com/x&sa=y`, it returns `http://bing.com/x`,
whose host `bing.com` is one of the eight blocked domains. -/
theorem C3_counterexample :
    search_company_website_core (lc "Acme") (fun _ => none)
      (some [lc "/url?q=http://bing.com/x&sa=y"]) =
      some (lc "http://bing.com/x") ∧
    url_host (lc "http://bing.com/x") = lc "bing.com" ∧
    lc "bing.com" ∈ excluded_domains := by
  exact ⟨by decide, by decide, by decide⟩

/-- Claim C3 (amended).  Every URL `search_company_website` returns starts
with `http`.  A URL from the primary loop additionally passed the full
per-anchor test (no blocklist substring anywhere in the lowercased href;
host contains a dot and is longer than 3).  A URL from the Google fallback
— taken only when the primary loop found nothing — is checked only against
the four platform substrings `google.com, facebook.com, twitter.com,
linkedin.com`, with no host validation and no exclusion of
`duckduckgo/bing/yahoo/instagram`. -/
theorem C3_search_result_invariants (name u : List Char)
    (responses : List Char → Option (List (List Char)))
    (google : Option (List (List Char)))
    (h : search_company_website_core name responses google = some u) :
    (lc "http").isPrefixOf u = true ∧
    ∃ c, clean_company_name name = some c ∧
      ((primary_search c responses = some u ∧ valid_candidate u = true) ∨
        (primary_search c responses = none ∧ google_platform_ok u = true)) := by
  rcases search_core_cases h with ⟨c, hc, hcase⟩
  rcases hcase with hp | ⟨hnone, hrefs, _, hf⟩
  · have hv := primary_search_valid hp
    have hhttp : (lc "http").isPrefixOf u = true := by
      rw [valid_candidate] at hv
      simp only [Bool.and_eq_true] at hv
      exact hv.1.1.2
    exact ⟨hhttp, c, hc, Or.inl ⟨hp, hv⟩⟩
  · rcases google_fallback_ok hf with ⟨h1, h2⟩
    exact ⟨h1, c, hc, Or.inr ⟨hnone, h2⟩⟩

theorem C3_search_result_invariants_witness :
    (lc "http").isPrefixOf (lc "http://bing.com/x") = true ∧
    ∃ c, clean_company_name (lc "Acme Co") = some c ∧
      ((primary_search c (fun _ => none) = some (lc "http://bing.com/x") ∧
          valid_candidate (lc "http://bing.com/x") = true) ∨
        (primary_search c (fun _ => none) = none ∧
          google_platform_ok (lc "http://bing.com/x") = true)) :=
  C3_search_result_invariants (lc "Acme Co") (lc "http://bing.com/x")
    (fun _ => none) (some [lc "/url?q=http://bing.com/x&sa=y"]) (by decide)

/-- Claim C8 (counterexample).  The primary loop's exclusion test is a
substring test on the whole lowercased href, not a test on the host:
`http://acme.com/?ref=google.com` has host `acme.com`, outside the
exclusion set, and satisfies every other condition, yet it is excluded
(and the anchor scan skips it) because `google.com` occurs in its query
string. -/
theorem C8_counterexample :
    href_excluded (lc "http://acme.com/?ref=google.com") = true ∧
    url_host (lc "http://acme.com/?ref=google.com") = lc "acme.com" ∧
    lc "acme.com" ∉ excluded_domains ∧
    (lc "http").isPrefixOf (lc "http://acme.com/?ref=google.com") = true ∧
    (url_host (lc "http://acme.com/?ref=google.com")).contains '.' = true ∧
    3 < (url_host (lc "http://acme.com/?ref=google.com")).length ∧
    valid_candidate (lc "http://acme.com/?ref=google.com") = false ∧
    first_valid [lc "http://acme.com/?ref=google.com"] = none := by
  exact ⟨by decide, by decide, by decide, by decide, by decide, by decide,
    by decide, by decide⟩

/-- Claim C8 (amended).  An anchor href is excluded exactly when one of the
eight blocked domain strings occurs as a substring anywhere in the whole
lowercased href.  A host in the exclusion set still implies exclusion —
but so does a blocked domain appearing in the path or query string. -/
theorem C8_exclusion_is_substring_test (href : List Char) :
    (href_excluded href = true ↔
      ∃ x ∈ excluded_domains, hasSub x (lowerL href) = true) ∧
    (url_host (lowerL href) ∈ excluded_domains → href_excluded href = true) := by
  constructor
  · exact List.any_eq_true
  · intro hmem
    by_cases hlen : 2 < (splitChar '/' (lowerL href)).length
    · have hhost : url_host (lowerL href) =
          (splitChar '/' (lowerL href)).getD 2 [] := by
        rw [url_host]
        exact if_pos hlen
      have hin : url_host (lowerL href) ∈ splitChar '/' (lowerL href) := by
        rw [hhost, List.getD_eq_getElem?_getD]
        rcases hx : (splitChar '/' (lowerL href))[2]? with _ | v
        · rw [List.getElem?_eq_none_iff] at hx
          omega
        · exact List.getElem?_mem hx
      rcases mem_splitChar_exists hin with ⟨x, y, hxy⟩
      rw [href_excluded, List.any_eq_true]
      exact ⟨url_host (lowerL href), hmem, hasSub_of_append hxy⟩
    · have hhost : url_host (lowerL href) = [] := by
        rw [url_host]
        exact if_neg hlen
      rw [hhost] at hmem
      exact absurd hmem (by decide)

theorem C8_exclusion_is_substring_test_witness :
    href_excluded (lc "http://google.com/a") = true :=
  (C8_exclusion_is_substring_test (lc "http://google.com/a")).2 (by decide)
